import Mathlib

/-!
Verification of the CSP auto-scheduler in `admin_modules/auto_scheduler.py`.

The solver's pure core is shallowly embedded here:
* times are modelled as hour/minute pairs (the source parses "HH:MM" strings
  and converts to minutes-since-midnight via `time_to_minutes`);
* a session dict is modelled by `Session` (ids that may be `None` in Python
  become `Option Nat`);
* `GroupKey`'s per-session tuple (with `int(x or 0)` id coercion) is
  `sessionKey`;
* the memoization caches of the source (`_compatibility_cache`,
  `_backtrack_cache`, `lru_cache`) are dropped: they are keyed on the full
  structural content of their arguments, so the embedded functions compute
  the same results the cached code does;
* the Python dicts `domains`, `assignment`, `instructor_load`, `max_loads`
  are modelled as insertion-ordered association lists, with `None`-free
  unique keys, matching dict semantics in the solver;
* `_instructor_status` (a module-level dict read by
  `is_consistent_assignment`) is passed as an explicit function
  `status : Option Nat → String`, modelling `_instructor_status.get(i, '')`;
* `backtrack`'s recursion is bounded by an explicit fuel argument; the
  wrapper `backtrack` supplies fuel `domains.length + 1`, which covers the
  recursion started from the empty assignment since every recursive call
  adds one fresh variable of the domains map to the assignment.
-/

namespace AutoScheduler

/-- Clock time of day, as parsed from an "HH:MM" string by the source's
`time_to_minutes` helper inside `_intervals_overlap_cached`. -/
structure Time where
  hour : Nat
  minute : Nat
deriving DecidableEq, Repr

/-- Embeds `time_to_minutes` (`h * 60 + m`) from `_intervals_overlap_cached`. -/
def time_to_minutes (t : Time) : Nat := t.hour * 60 + t.minute

/-- Embeds `_intervals_overlap_cached`: half-open interval overlap on
minutes-since-midnight, `not (end1 <= start2 or end2 <= start1)`. -/
def _intervals_overlap_cached (s1 e1 s2 e2 : Time) : Bool :=
  let start1 := time_to_minutes s1
  let end1 := time_to_minutes e1
  let start2 := time_to_minutes s2
  let end2 := time_to_minutes e2
  !(decide (end1 ≤ start2) || decide (end2 ≤ start1))

/-- Embeds `intervals_overlap`, which just delegates to the cached check. -/
def intervals_overlap (s1 e1 s2 e2 : Time) : Bool :=
  _intervals_overlap_cached s1 e1 s2 e2

/-- One session dict as built by `_build_domain_for_subject`: the fields read
by the solver (`GroupKey.__init__` uses `.get`, so ids may be absent/None,
modelled by `Option Nat`; the day may be missing, modelled by `""`). -/
structure Session where
  subject_id : Option Nat
  instructor_id : Option Nat
  room_id : Option Nat
  day_of_week : String
  start_time : Time
  end_time : Time
deriving DecidableEq, Repr

/-- One entry of `GroupKey.sessions_data`: ids coerced by `int(... or 0)`. -/
structure SessionKey where
  subject_id : Nat
  instructor_id : Nat
  room_id : Nat
  day_of_week : String
  start_time : Time
  end_time : Time
deriving DecidableEq, Repr

/-- Embeds the per-session tuple construction in `GroupKey.__init__`:
a missing (`None`) subject/instructor/room id becomes `0`. -/
def sessionKey (s : Session) : SessionKey :=
  { subject_id := s.subject_id.getD 0
    instructor_id := s.instructor_id.getD 0
    room_id := s.room_id.getD 0
    day_of_week := s.day_of_week
    start_time := s.start_time
    end_time := s.end_time }

/-- A session group: the CSP value assigned to one subject variable. -/
abbrev Group := List Session

/-- Embeds `GroupKey.sessions_data` for a whole group. -/
def groupKeyData (g : Group) : List SessionKey := g.map sessionKey

/-- The body of the inner double loop of `_groups_compatible_fast` for one
pair of session tuples: `true` iff neither conflict rule fires.  The first
conjunct is the same-subject rule (skipped when the shared subject id is 0),
the second is the same-day time-overlap rule (instructor/room ids of 0 are
exempt, and empty day strings are falsy in `day_a and day_b`). -/
def sessionPairOk (a b : SessionKey) : Bool :=
  (if a.subject_id = b.subject_id ∧ a.subject_id ≠ 0 then
    decide (a.instructor_id = b.instructor_id) &&
      decide (a.room_id = b.room_id) &&
      decide (a.day_of_week ≠ b.day_of_week)
  else true)
  &&
  (if a.day_of_week = b.day_of_week ∧ a.day_of_week ≠ "" ∧ b.day_of_week ≠ "" then
    if _intervals_overlap_cached a.start_time a.end_time b.start_time b.end_time then
      !(decide (a.instructor_id = b.instructor_id) && decide (a.instructor_id ≠ 0)) &&
        !(decide (a.room_id = b.room_id) && decide (a.room_id ≠ 0))
    else true
  else true)

/-- Embeds `_groups_compatible_fast`: the all-pairs conflict scan.  The
source returns `False` at the first conflicting pair, which as a boolean
equals this all-pairs conjunction. -/
def _groups_compatible_fast (sessions_a sessions_b : List SessionKey) : Bool :=
  sessions_a.all (fun a => sessions_b.all (fun b => sessionPairOk a b))

/-- Embeds `groups_compatible`: vacuously true when either group is empty,
otherwise the (memoized in the source) all-pairs check on the key data. -/
def groups_compatible (group_a group_b : Group) : Bool :=
  if group_a.isEmpty || group_b.isEmpty then true
  else _groups_compatible_fast (groupKeyData group_a) (groupKeyData group_b)

/-- Embeds the slot loop of `generate_time_slots_fixed`: iterates the given
indices, emitting `(start + i*step, start + i*step + len)` and stopping at
the first slot that ends past the window end (`break`). -/
def genSlotsGo (startMin endMin lenMin stepMin : Nat) : List Nat → List (Nat × Nat)
  | [] => []
  | i :: rest =>
    let slot_start := startMin + i * stepMin
    let slot_end := slot_start + lenMin
    if endMin < slot_end then []
    else (slot_start, slot_end) :: genSlotsGo startMin endMin lenMin stepMin rest

/-- Embeds `generate_time_slots_fixed` on minutes-since-midnight: Python's
`n_slots = total_minutes // step_minutes` with a negative total yields an
empty range, as does truncated subtraction here. -/
def generate_time_slots_fixed (startMin endMin lenMin stepMin : Nat) : List (Nat × Nat) :=
  genSlotsGo startMin endMin lenMin stepMin (List.range ((endMin - startMin) / stepMin))

/-- Embeds the dedup loop of `_generate_time_slots_list`: keeps the first
occurrence of each `(start, end)` pair (the source keys the seen-set by the
fixed-width string `"s-e"`, which is injective in the pair). -/
def dedupSlots (seen : List (Nat × Nat)) : List (Nat × Nat) → List (Nat × Nat)
  | [] => []
  | p :: rest =>
    if p ∈ seen then dedupSlots seen rest
    else p :: dedupSlots (p :: seen) rest

/-- Embeds `_generate_time_slots_list`: 60- and 90-minute slots at a
30-minute step, concatenated and deduplicated. -/
def _generate_time_slots_list (startMin endMin : Nat) : List (Nat × Nat) :=
  dedupSlots []
    (generate_time_slots_fixed startMin endMin 60 30 ++
      generate_time_slots_fixed startMin endMin 90 30)

/-- A CSP variable: `str(subject_id)` in the source. -/
abbrev Var := String

/-- The `domains` dict: insertion-ordered map from variable to candidate
groups. -/
abbrev Domains := List (Var × List Group)

/-- Dict read `domains[v]` (with `[]` for an absent key; the solver only
reads present keys). -/
def lookupDomain : Domains → Var → List Group
  | [], _ => []
  | (k, d) :: rest, v => if k = v then d else lookupDomain rest v

/-- Dict write `domains[v] = newDom` for a key already present (the solver
never writes a fresh key into `domains`). -/
def setDomain (domains : Domains) (v : Var) (newDom : List Group) : Domains :=
  domains.map (fun p => if p.1 = v then (p.1, newDom) else p)

/-- Support test used by `revise_fast`: some value of the neighbouring
domain is compatible (the source first consults `_compatibility_cache`,
whose entries agree with `groups_compatible`). -/
def hasSupport (domain_xj : List Group) (val_x : Group) : Bool :=
  domain_xj.any (fun val_y => groups_compatible val_x val_y)

/-- Embeds `revise_fast`: no-op when either domain is empty; otherwise
removes from `xi`'s domain every value with no compatible value in `xj`'s
domain, reporting whether anything was removed. -/
def revise_fast (domains : Domains) (xi xj : Var) : Bool × Domains :=
  let domain_xi := lookupDomain domains xi
  let domain_xj := lookupDomain domains xj
  if domain_xi.isEmpty || domain_xj.isEmpty then (false, domains)
  else
    let kept := domain_xi.filter (hasSupport domain_xj)
    if kept.length = domain_xi.length then (false, domains)
    else (true, setDomain domains xi kept)

/-- The worklist admission test of `ac3`: with trimming enabled a pair is
enqueued only when both domains have size `< 40`. -/
def queueCond (domains : Domains) (trim : Bool) (xi xj : Var) : Bool :=
  !trim ||
    (decide ((lookupDomain domains xi).length < 40) &&
      decide ((lookupDomain domains xj).length < 40))

/-- Embeds the worklist initialization of `ac3`: for every `i < j` in key
order, `(keys[i], keys[j])` and `(keys[j], keys[i])` are appended when
`queueCond` holds. -/
def initQueue (domains : Domains) (trim : Bool) : List Var → List (Var × Var)
  | [] => []
  | xi :: rest =>
    ((rest.map (fun xj =>
        if queueCond domains trim xi xj then [(xi, xj), (xj, xi)] else [])).flatten)
      ++ initQueue domains trim rest

/-- Embeds the `while` loop of `ac3`: FIFO processing with the revision
budget `maxRev`; a revision that empties `xi`'s domain fails immediately,
otherwise all `(xk, xi)` for `xk` outside `{xi, xj}` are re-enqueued. -/
def ac3Loop (allKeys : List Var) (maxRev : Nat) (queue : List (Var × Var))
    (domains : Domains) (revisions : Nat) : Bool × Domains :=
  match queue with
  | [] => (true, domains)
  | (xi, xj) :: rest =>
    if revisions < maxRev then
      let r := revise_fast domains xi xj
      if r.1 then
        if (lookupDomain r.2 xi).isEmpty then (false, r.2)
        else
          ac3Loop allKeys maxRev
            (rest ++ (allKeys.filter (fun xk => !(decide (xk = xi) || decide (xk = xj)))).map
              (fun xk => (xk, xi)))
            r.2 (revisions + 1)
      else ac3Loop allKeys maxRev rest r.2 revisions
    else (true, domains)
termination_by (maxRev - revisions, queue.length)
decreasing_by
· apply Prod.Lex.left
  omega
· apply Prod.Lex.right
  simp

/-- Embeds `ac3`: trivially true on an empty map, otherwise runs the
worklist loop with revision budget `variables * 100`; returns the verdict
together with the final (pruned) domains. -/
def ac3 (domains : Domains) (trim_large_domains : Bool) : Bool × Domains :=
  let keys := domains.map Prod.fst
  if keys.isEmpty then (true, domains)
  else ac3Loop keys (keys.length * 100) (initQueue domains trim_large_domains keys) domains 0

/-- The `assignment` dict: insertion-ordered map variable → chosen group. -/
abbrev Assign := List (Var × Group)

/-- The `instructor_load` / `max_loads` dicts: instructor id → count. -/
abbrev Loads := List (Nat × Nat)

/-- Dict read `d.get(i, 0)`. -/
def loadGet : Loads → Nat → Nat
  | [], _ => 0
  | (k, n) :: rest, i => if k = i then n else loadGet rest i

/-- Dict write `d[i] = n`: replaces an existing key, otherwise appends. -/
def loadSet : Loads → Nat → Nat → Loads
  | [], i, n => [(i, n)]
  | (k, m) :: rest, i, n =>
    if k = i then (k, n) :: rest else (k, m) :: loadSet rest i n

/-- The instructor id the solver charges a group to:
`group[0].get('instructor_id')` (defined only for nonempty groups; `none`
also stands for the empty group, which `backtrack` skips). -/
def groupInstructor (g : Group) : Option Nat :=
  match g.head? with
  | none => none
  | some s => s.instructor_id

/-- The days of a group's sessions, as read by the part-time spread rule. -/
def groupDays (g : Group) : List String := g.map Session.day_of_week

/-- Embeds the `assigned_days` accumulation of `is_consistent_assignment`:
days of every assigned group whose first session has instructor `instr`. -/
def instructorAssignedDays (assignment : Assign) (instr : Option Nat) : List String :=
  assignment.foldr
    (fun p acc =>
      if (p.2.head?.map Session.instructor_id) = some instr then groupDays p.2 ++ acc
      else acc) []

/-- The day set `assigned_days ∪ new_days` of the part-time spread rule,
with `dedup` standing for Python set semantics (its length is the number of
distinct days). -/
def spreadDays (assignment : Assign) (candidate : Group) (instr : Option Nat) : List String :=
  (instructorAssignedDays assignment instr ++ groupDays candidate).dedup

/-- Embeds `is_consistent_assignment`: the candidate must be compatible with
every already-assigned group, and a part-time instructor must not end up
with all assigned days on exactly one distinct day.  (The source indexes
`candidate_group[0]`; `backtrack` only passes nonempty candidates, and the
empty case here is the vacuous `true`.) -/
def is_consistent_assignment (status : Option Nat → String) (assignment : Assign)
    (candidate_group : Group) : Bool :=
  if assignment.all (fun p => groups_compatible candidate_group p.2) then
    match candidate_group.head? with
    | none => true
    | some s0 =>
      if status s0.instructor_id = "part time" then
        if (spreadDays assignment candidate_group s0.instructor_id).length = 1 then false
        else true
      else true
  else false

/-- First element of a nonempty list minimizing `f` (both branches of
`select_unassigned_variable` — `np.argmin` and `min(..., key=...)` — return
the first minimizer). -/
def firstMinBy (f : Var → Nat) (x : Var) (xs : List Var) : Var :=
  xs.foldl (fun best y => if f y < f best then y else best) x

/-- Embeds `select_unassigned_variable`: the first unassigned variable with
the smallest current domain, or `none` when all are assigned. -/
def select_unassigned_variable (domains : Domains) (assignment : Assign) : Option Var :=
  let unassigned :=
    (domains.map Prod.fst).filter (fun v => !(decide (v ∈ assignment.map Prod.fst)))
  match unassigned with
  | [] => none
  | x :: xs => some (firstMinBy (fun v => (lookupDomain domains v).length) x xs)

/-- Stable ascending sort by group size, modelling
`domain_vals.sort(key=len)` / `sorted(domain_vals, key=len)` (Python's sort
is stable, and a stable sort under a total preorder has a unique result, so
stable insertion sort computes the same list). -/
def insertByLen (g : Group) : List Group → List Group
  | [] => [g]
  | h :: t => if h.length ≤ g.length then h :: insertByLen g t else g :: h :: t

/-- Stable insertion sort by group size. -/
def sortGroups : List Group → List Group
  | [] => []
  | g :: rest => insertByLen g (sortGroups rest)

/-- Embeds the loop of `forward_check` over the listed keys: skips assigned
variables and `var` itself, filters every other domain to the values
compatible with the new group, fails (`none`) if a domain empties (the
source then restores its partial backup, so the caller's domains are
unchanged), and records a backup entry for every domain it shrank. -/
def forwardLoop (assignment : Assign) (var : Var) (value : Group) (domains : Domains) :
    List Var → Option (Domains × List (Var × List Group))
  | [] => some (domains, [])
  | v :: rest =>
    if v ∈ assignment.map Prod.fst ∨ v = var then
      forwardLoop assignment var value domains rest
    else
      let old := lookupDomain domains v
      let filtered := old.filter (fun g => groups_compatible value g)
      if filtered.isEmpty then none
      else if filtered.length < old.length then
        match forwardLoop assignment var value (setDomain domains v filtered) rest with
        | none => none
        | some (d, backup) => some (d, (v, old) :: backup)
      else forwardLoop assignment var value domains rest

/-- Embeds `forward_check`: iterates over the keys of `domains`; returns the
updated domains and the backup of every shrunk entry, or `none` for the
source's `False`. -/
def forward_check (assignment : Assign) (domains : Domains) (var : Var) (value : Group) :
    Option (Domains × List (Var × List Group)) :=
  forwardLoop assignment var value domains (domains.map Prod.fst)

/-- Embeds the backup restoration `for dv, vals in backup.items():
domains[dv] = vals` run after a failed candidate. -/
def restoreBackup (domains : Domains) : List (Var × List Group) → Domains
  | [] => domains
  | (v, old) :: rest => restoreBackup (setDomain domains v old) rest

/-- Embeds the `for group in domain_vals` loop of `backtrack`, with the
recursive call abstracted as `bt` (the caller passes the next-lower fuel
level of `backtrackFuel`).  A candidate is skipped when it is empty, has no
instructor on its first session, would exceed the instructor's load cap, or
is inconsistent; otherwise it is tentatively assigned, forward checking
runs, and the search recurses.  A falsy recursive result (Python `if
result:`, i.e. `None` or the empty dict) undoes the tentative assignment,
restores the backed-up domains and tries the next candidate. -/
def tryGroupsWith (bt : Assign → Domains → Loads → Option Assign × Domains)
    (status : Option Nat → String) (max_loads : Loads) (assignment : Assign) (var : Var)
    (domains : Domains) (instructor_load : Loads) :
    List Group → Option Assign × Domains
  | [] => (none, domains)
  | group :: rest =>
    match group.head? with
    | none => tryGroupsWith bt status max_loads assignment var domains instructor_load rest
    | some s0 =>
      match s0.instructor_id with
      | none => tryGroupsWith bt status max_loads assignment var domains instructor_load rest
      | some instr =>
        let sessions_needed := group.length
        let current_load := loadGet instructor_load instr
        if loadGet max_loads instr < current_load + sessions_needed then
          tryGroupsWith bt status max_loads assignment var domains instructor_load rest
        else if !(is_consistent_assignment status assignment group) then
          tryGroupsWith bt status max_loads assignment var domains instructor_load rest
        else
          let assignment2 := assignment ++ [(var, group)]
          let load2 := loadSet instructor_load instr (current_load + sessions_needed)
          match forward_check assignment2 domains var group with
          | none => tryGroupsWith bt status max_loads assignment var domains instructor_load rest
          | some (domains2, backup) =>
            match bt assignment2 domains2 load2 with
            | (some result, dAfter) =>
              if result.isEmpty then
                tryGroupsWith bt status max_loads assignment var (restoreBackup dAfter backup)
                  instructor_load rest
              else (some result, dAfter)
            | (none, dAfter) =>
              tryGroupsWith bt status max_loads assignment var (restoreBackup dAfter backup)
                instructor_load rest

/-- Embeds `backtrack` with explicit fuel (the recursion depth): success
when every variable is assigned, otherwise try every candidate group of the
minimum-remaining-values variable, whose domain is first sorted by group
size (in place — i.e. written back into `domains` — when it has at most 100
entries, on a sorted copy otherwise).  The final domains map is threaded
through and returned alongside the result, mirroring the in-place mutation
of the source.  The dead-state `_backtrack_cache` is dropped: it only
replays results this recursion computes. -/
def backtrackFuel (status : Option Nat → String) (max_loads : Loads) :
    Nat → Assign → Domains → Loads → Option Assign × Domains
  | 0, _, domains, _ => (none, domains)
  | fuel + 1, assignment, domains, instructor_load =>
    if assignment.length = domains.length then (some assignment, domains)
    else
      match select_unassigned_variable domains assignment with
      | none => (none, domains)
      | some var =>
        let dv := lookupDomain domains var
        let domain_vals := sortGroups dv
        let domains1 := if dv.length ≤ 100 then setDomain domains var domain_vals else domains
        tryGroupsWith (fun a d l => backtrackFuel status max_loads fuel a d l)
          status max_loads assignment var domains1 instructor_load domain_vals

/-- Embeds the solver's call `backtrack({}, domains, {}, max_loads)`: empty
assignment, zero loads.  Fuel `domains.length + 1` always suffices: each
recursion level adds one fresh variable of the domains map, so the depth
never exceeds the number of variables plus one. -/
def backtrack (status : Option Nat → String) (domains : Domains) (max_loads : Loads) :
    Option Assign × Domains :=
  backtrackFuel status max_loads (domains.length + 1) [] domains []

/-! ### Basic lemmas about the association-list dictionary operations -/

theorem setDomain_cons (k : Var) (dd : List Group) (rest : Domains) (v : Var)
    (x : List Group) :
    setDomain ((k, dd) :: rest) v x =
      (if k = v then (k, x) else (k, dd)) :: setDomain rest v x := by
  simp only [setDomain, List.map_cons]

theorem setDomain_map_fst (d : Domains) (v : Var) (x : List Group) :
    (setDomain d v x).map Prod.fst = d.map Prod.fst := by
  induction d with
  | nil => rfl
  | cons p rest ih =>
    obtain ⟨k, dd⟩ := p
    rw [setDomain_cons]
    by_cases hk : k = v
    · rw [if_pos hk]
      simp [ih]
    · rw [if_neg hk]
      simp [ih]

theorem lookupDomain_setDomain_other (d : Domains) (v : Var) (x : List Group) (w : Var)
    (h : v ≠ w) : lookupDomain (setDomain d v x) w = lookupDomain d w := by
  induction d with
  | nil => rfl
  | cons p rest ih =>
    obtain ⟨k, dd⟩ := p
    rw [setDomain_cons]
    by_cases hk : k = v
    · subst hk
      rw [if_pos rfl]
      simp only [lookupDomain]
      rw [if_neg h, if_neg h]
      exact ih
    · rw [if_neg hk]
      simp only [lookupDomain]
      by_cases hw : k = w
      · rw [if_pos hw, if_pos hw]
      · rw [if_neg hw, if_neg hw]
        exact ih

theorem lookupDomain_setDomain_self (d : Domains) (v : Var) (x : List Group)
    (h : v ∈ d.map Prod.fst) : lookupDomain (setDomain d v x) v = x := by
  induction d with
  | nil => simp at h
  | cons p rest ih =>
    obtain ⟨k, dd⟩ := p
    rw [setDomain_cons]
    by_cases hk : k = v
    · subst hk
      rw [if_pos rfl]
      simp [lookupDomain]
    · rw [if_neg hk]
      simp only [lookupDomain]
      rw [if_neg hk]
      apply ih
      simp only [List.map_cons, List.mem_cons] at h
      rcases h with h | h
      · exact absurd h.symm hk
      · exact h

theorem lookupDomain_eq_nil_of_not_mem (d : Domains) (v : Var)
    (h : v ∉ d.map Prod.fst) : lookupDomain d v = [] := by
  induction d with
  | nil => rfl
  | cons p rest ih =>
    obtain ⟨k, dd⟩ := p
    simp only [List.map_cons, List.mem_cons, not_or] at h
    simp only [lookupDomain]
    rw [if_neg (fun hk => h.1 hk.symm)]
    exact ih h.2

theorem mem_keys_of_lookup_ne_nil {d : Domains} {v : Var}
    (h : lookupDomain d v ≠ []) : v ∈ d.map Prod.fst := by
  by_contra hc
  exact h (lookupDomain_eq_nil_of_not_mem d v hc)

theorem lookupDomain_setDomain_sublist (d : Domains) (v : Var) (x : List Group) (w : Var)
    (hx : x.Sublist (lookupDomain d v)) :
    (lookupDomain (setDomain d v x) w).Sublist (lookupDomain d w) := by
  by_cases hv : v = w
  · subst hv
    by_cases hm : v ∈ d.map Prod.fst
    · rw [lookupDomain_setDomain_self d v x hm]
      exact hx
    · rw [lookupDomain_eq_nil_of_not_mem d v hm] at hx ⊢
      rw [List.sublist_nil] at hx
      subst hx
      rw [lookupDomain_eq_nil_of_not_mem _ v]
      rw [setDomain_map_fst]
      exact hm
  · rw [lookupDomain_setDomain_other d v x w hv]

/-! ### Lemmas about `revise_fast` -/

theorem revise_fast_sublist (domains : Domains) (xi xj v : Var) :
    (lookupDomain (revise_fast domains xi xj).2 v).Sublist (lookupDomain domains v) := by
  simp only [revise_fast]
  split
  · exact List.Sublist.refl _
  · split
    · exact List.Sublist.refl _
    · exact lookupDomain_setDomain_sublist _ _ _ _ (List.filter_sublist _)

theorem revise_fast_fst_true {domains : Domains} {xi xj : Var}
    (h : (revise_fast domains xi xj).1 = true) : lookupDomain domains xi ≠ [] := by
  intro hnil
  unfold revise_fast at h
  rw [hnil] at h
  simp at h

theorem revise_fast_empty_xi (domains : Domains) (xi xj : Var)
    (h : lookupDomain domains xi = []) : revise_fast domains xi xj = (false, domains) := by
  unfold revise_fast
  rw [h]
  simp

theorem revise_fast_empty_xj (domains : Domains) (xi xj : Var)
    (h : lookupDomain domains xj = []) : revise_fast domains xi xj = (false, domains) := by
  unfold revise_fast
  rw [h]
  simp

/-! ### Overlap and compatibility lemmas -/

theorem _intervals_overlap_cached_comm (s1 e1 s2 e2 : Time) :
    _intervals_overlap_cached s1 e1 s2 e2 = _intervals_overlap_cached s2 e2 s1 e1 := by
  simp only [_intervals_overlap_cached]
  rw [Bool.or_comm]

theorem sessionPairOk_eq_true (a b : SessionKey) :
    sessionPairOk a b = true ↔
      ((a.subject_id = b.subject_id ∧ a.subject_id ≠ 0 →
          a.instructor_id = b.instructor_id ∧ a.room_id = b.room_id ∧
            a.day_of_week ≠ b.day_of_week) ∧
        (a.day_of_week = b.day_of_week ∧ a.day_of_week ≠ "" ∧ b.day_of_week ≠ "" →
          _intervals_overlap_cached a.start_time a.end_time b.start_time b.end_time = true →
          ¬(a.instructor_id = b.instructor_id ∧ a.instructor_id ≠ 0) ∧
            ¬(a.room_id = b.room_id ∧ a.room_id ≠ 0))) := by
  by_cases h1 : a.subject_id = b.subject_id ∧ a.subject_id ≠ 0 <;>
    by_cases h2 : a.day_of_week = b.day_of_week ∧ a.day_of_week ≠ "" ∧ b.day_of_week ≠ "" <;>
      by_cases h3 :
        _intervals_overlap_cached a.start_time a.end_time b.start_time b.end_time = true <;>
        simp [sessionPairOk, h1, h2, h3] <;> tauto

theorem sessionPairOk_true_symm (a b : SessionKey) (h : sessionPairOk a b = true) :
    sessionPairOk b a = true := by
  rw [sessionPairOk_eq_true] at h ⊢
  obtain ⟨hs, ho⟩ := h
  constructor
  · rintro ⟨he, hz⟩
    obtain ⟨hi, hr, hd⟩ := hs ⟨he.symm, by rw [he] at hz; exact hz⟩
    exact ⟨hi.symm, hr.symm, fun hdd => hd hdd.symm⟩
  · rintro ⟨hd, hne, hne'⟩ hov
    rw [_intervals_overlap_cached_comm] at hov
    obtain ⟨hi, hr⟩ := ho ⟨hd.symm, hne', hne⟩ hov
    constructor
    · rintro ⟨he, hz⟩
      exact hi ⟨he.symm, by rw [he] at hz; exact hz⟩
    · rintro ⟨he, hz⟩
      exact hr ⟨he.symm, by rw [he] at hz; exact hz⟩

theorem sessionPairOk_symm (a b : SessionKey) : sessionPairOk a b = sessionPairOk b a := by
  rw [Bool.eq_iff_iff]
  exact ⟨fun h => sessionPairOk_true_symm a b h, fun h => sessionPairOk_true_symm b a h⟩

theorem _groups_compatible_fast_symm (sa sb : List SessionKey) :
    _groups_compatible_fast sa sb = _groups_compatible_fast sb sa := by
  rw [Bool.eq_iff_iff]
  simp only [_groups_compatible_fast, List.all_eq_true]
  constructor
  · intro h b hb a ha
    rw [sessionPairOk_symm]
    exact h a ha b hb
  · intro h a ha b hb
    rw [sessionPairOk_symm]
    exact h b hb a ha

theorem groups_compatible_symm (g h : Group) :
    groups_compatible g h = groups_compatible h g := by
  simp only [groups_compatible]
  by_cases hg : g.isEmpty <;> by_cases hh : h.isEmpty <;>
    simp [hg, hh, _groups_compatible_fast_symm]

theorem groups_compatible_mem {g h : Group} (hc : groups_compatible g h = true)
    {a b : Session} (ha : a ∈ g) (hb : b ∈ h) :
    sessionPairOk (sessionKey a) (sessionKey b) = true := by
  have hge : g.isEmpty = false := by
    cases g
    · simp at ha
    · rfl
  have hhe : h.isEmpty = false := by
    cases h
    · simp at hb
    · rfl
  simp only [groups_compatible, hge, hhe, Bool.or_self, Bool.false_eq_true, if_false] at hc
  simp only [_groups_compatible_fast, groupKeyData, List.all_eq_true] at hc
  exact hc _ (List.mem_map_of_mem _ ha) _ (List.mem_map_of_mem _ hb)

theorem sessionPairOk_overlap {ka kb : SessionKey} (h : sessionPairOk ka kb = true)
    (hd : ka.day_of_week = kb.day_of_week) (hne : ka.day_of_week ≠ "")
    (ho : _intervals_overlap_cached ka.start_time ka.end_time kb.start_time kb.end_time = true) :
    ¬(ka.instructor_id = kb.instructor_id ∧ ka.instructor_id ≠ 0) ∧
      ¬(ka.room_id = kb.room_id ∧ ka.room_id ≠ 0) := by
  rw [sessionPairOk_eq_true] at h
  exact h.2 ⟨hd, hne, hd ▸ hne⟩ ho

/-! ### Claims C6, C7, C9 -/

/-- C6: `intervals_overlap` implements half-open overlap on
minutes-since-midnight (`true` iff `s1 < e2` and `s2 < e1`), is commutative
in its two intervals, and touching endpoints do not overlap:
08:00-09:00 vs 09:00-10:00 is `false`, 08:00-10:00 vs 09:00-11:00 is
`true`. -/
theorem intervals_overlap_spec :
    (∀ s1 e1 s2 e2 : Time,
      intervals_overlap s1 e1 s2 e2 = true ↔
        (time_to_minutes s1 < time_to_minutes e2 ∧ time_to_minutes s2 < time_to_minutes e1)) ∧
    (∀ s1 e1 s2 e2 : Time,
      intervals_overlap s1 e1 s2 e2 = intervals_overlap s2 e2 s1 e1) ∧
    intervals_overlap ⟨8, 0⟩ ⟨9, 0⟩ ⟨9, 0⟩ ⟨10, 0⟩ = false ∧
    intervals_overlap ⟨8, 0⟩ ⟨10, 0⟩ ⟨9, 0⟩ ⟨11, 0⟩ = true := by
  refine ⟨fun s1 e1 s2 e2 => ?_, fun s1 e1 s2 e2 => ?_, by decide, by decide⟩
  · simp only [intervals_overlap, _intervals_overlap_cached, Bool.not_eq_true',
      Bool.or_eq_false_iff, decide_eq_false_iff_not, not_le]
    tauto
  · exact _intervals_overlap_cached_comm s1 e1 s2 e2

/-- C7: the compatibility oracle is vacuously true when either group is
empty: `groups_compatible [] X = groups_compatible X [] = true`. -/
theorem groups_compatible_empty (X : Group) :
    groups_compatible [] X = true ∧ groups_compatible X [] = true := by
  constructor
  · rfl
  · simp [groups_compatible]

/-- The two sessions of the C9 counterexample: same (nonzero) subject id,
missing instructor and room ids, same day, overlapping times. -/
def c9SessionA : Session :=
  ⟨some 1, none, none, "Monday", ⟨8, 0⟩, ⟨9, 0⟩⟩

/-- Second session of the C9 counterexample. -/
def c9SessionB : Session :=
  ⟨some 1, none, none, "Monday", ⟨8, 30⟩, ⟨9, 30⟩⟩

/-- C9, counterexample: two same-day, time-overlapping instances whose
coerced instructor ids and room ids are all 0 are nevertheless judged
incompatible, because they share a nonzero subject id and the same-subject
rule also forbids same-day repetition.  So the claim's first clause fails
as stated. -/
theorem groupKey_zero_counterexample :
    (sessionKey c9SessionA).instructor_id = 0 ∧
    (sessionKey c9SessionB).instructor_id = 0 ∧
    (sessionKey c9SessionA).room_id = 0 ∧
    (sessionKey c9SessionB).room_id = 0 ∧
    c9SessionA.day_of_week = c9SessionB.day_of_week ∧
    intervals_overlap c9SessionA.start_time c9SessionA.end_time
      c9SessionB.start_time c9SessionB.end_time = true ∧
    groups_compatible [c9SessionA] [c9SessionB] = false := by
  decide

/-- C9, amended: `GroupKey` coerces missing (None) subject, instructor and
room ids to 0; the same-subject rule never fires when the shared subject id
is 0; and two same-day, time-overlapping instances whose instructor ids and
room ids are all 0 are judged compatible provided they do not also share a
nonzero subject id (in which case the same-subject rule rejects them). -/
theorem groupKey_zero_exemption :
    (∀ s : Session, s.subject_id = none → (sessionKey s).subject_id = 0) ∧
    (∀ s : Session, s.instructor_id = none → (sessionKey s).instructor_id = 0) ∧
    (∀ s : Session, s.room_id = none → (sessionKey s).room_id = 0) ∧
    (∀ a b : Session,
      (sessionKey a).instructor_id = 0 → (sessionKey b).instructor_id = 0 →
      (sessionKey a).room_id = 0 → (sessionKey b).room_id = 0 →
      ¬((sessionKey a).subject_id = (sessionKey b).subject_id ∧
          (sessionKey a).subject_id ≠ 0) →
      groups_compatible [a] [b] = true) := by
  refine ⟨fun s h => by simp [sessionKey, h], fun s h => by simp [sessionKey, h],
    fun s h => by simp [sessionKey, h], fun a b hia hib hra hrb hs => ?_⟩
  simp only [groups_compatible, List.isEmpty_cons, Bool.or_self, Bool.false_eq_true,
    if_false, _groups_compatible_fast, groupKeyData, List.map_cons, List.map_nil,
    List.all_cons, List.all_nil, Bool.and_true]
  rw [sessionPairOk_eq_true]
  constructor
  · intro hc
    exact absurd hc hs
  · intro _ _
    constructor
    · rintro ⟨_, hz⟩
      exact hz hia
    · rintro ⟨_, hz⟩
      exact hz hra

/-- C9 witness: a concrete instantiation of the amended exemption — two
same-day overlapping sessions with all ids missing are compatible. -/
theorem groupKey_zero_exemption_witness :
    groups_compatible [(⟨none, none, none, "Monday", ⟨8, 0⟩, ⟨9, 0⟩⟩ : Session)]
      [(⟨none, none, none, "Monday", ⟨8, 30⟩, ⟨9, 30⟩⟩ : Session)] = true :=
  groupKey_zero_exemption.2.2.2 _ _ (by decide) (by decide) (by decide) (by decide)
    (by decide)

/-! ### Time-slot generation lemmas and claim C8 -/

theorem genSlotsGo_mem {startMin endMin lenMin stepMin : Nat} {l : List Nat} {s e : Nat}
    (h : (s, e) ∈ genSlotsGo startMin endMin lenMin stepMin l) :
    ∃ i ∈ l, s = startMin + i * stepMin ∧ e = s + lenMin ∧ e ≤ endMin := by
  induction l with
  | nil => simp [genSlotsGo] at h
  | cons i rest ih =>
    simp only [genSlotsGo] at h
    split at h
    · simp at h
    · rcases List.mem_cons.mp h with h1 | h2
      · obtain ⟨hs, he⟩ := Prod.mk.injEq .. ▸ h1
        refine ⟨i, List.mem_cons_self i rest, hs, by omega, by omega⟩
      · obtain ⟨j, hj, hj2⟩ := ih h2
        exact ⟨j, List.mem_cons_of_mem i hj, hj2⟩

theorem dedupSlots_subset {l : List (Nat × Nat)} {x : Nat × Nat} :
    ∀ {seen : List (Nat × Nat)}, x ∈ dedupSlots seen l → x ∈ l := by
  induction l with
  | nil => intro seen h; simp [dedupSlots] at h
  | cons p rest ih =>
    intro seen h
    simp only [dedupSlots] at h
    by_cases hp : p ∈ seen
    · rw [if_pos hp] at h
      exact List.mem_cons_of_mem p (ih h)
    · rw [if_neg hp] at h
      rcases List.mem_cons.mp h with h1 | h2
      · exact h1 ▸ List.mem_cons_self p rest
      · exact List.mem_cons_of_mem p (ih h2)

theorem dedupSlots_nodup (l : List (Nat × Nat)) :
    ∀ seen, (dedupSlots seen l).Nodup ∧ ∀ x ∈ dedupSlots seen l, x ∉ seen := by
  induction l with
  | nil => intro seen; simp [dedupSlots]
  | cons p rest ih =>
    intro seen
    simp only [dedupSlots]
    by_cases hp : p ∈ seen
    · rw [if_pos hp]
      exact ih seen
    · rw [if_neg hp]
      obtain ⟨hnd, hdisj⟩ := ih (p :: seen)
      refine ⟨List.nodup_cons.mpr ⟨fun hmem => ?_, hnd⟩, ?_⟩
      · exact (hdisj p hmem) (List.mem_cons_self p seen)
      · intro x hx
        rcases List.mem_cons.mp hx with h1 | h1
        · exact h1 ▸ hp
        · exact fun hxs => (hdisj x h1) (List.mem_cons_of_mem p hxs)

/-- C8: every slot produced by `_generate_time_slots_list` lasts exactly 60
or exactly 90 minutes, starts at the window start plus a multiple of 30
minutes, and lies entirely within the window; and the produced list has no
duplicate pair.  (Determinism is immediate: the embedding is a pure
function of the window.) -/
theorem time_slots_spec :
    (∀ startMin endMin s e, (s, e) ∈ _generate_time_slots_list startMin endMin →
      (e = s + 60 ∨ e = s + 90) ∧ (∃ k, s = startMin + 30 * k) ∧
        startMin ≤ s ∧ e ≤ endMin) ∧
    (∀ startMin endMin, (_generate_time_slots_list startMin endMin).Nodup) := by
  constructor
  · intro st en s e h
    have h2 := dedupSlots_subset h
    rw [List.mem_append] at h2
    rcases h2 with h3 | h3
    · obtain ⟨i, _, hs, he, hle⟩ := genSlotsGo_mem h3
      exact ⟨Or.inl he, ⟨i, by omega⟩, by omega, hle⟩
    · obtain ⟨i, _, hs, he, hle⟩ := genSlotsGo_mem h3
      exact ⟨Or.inr he, ⟨i, by omega⟩, by omega, hle⟩
  · intro st en
    exact (dedupSlots_nodup _ []).1

/-- C8 witness: the 08:00-17:00 window (in minutes) contains the 60-minute
slot starting at the window start, with the claimed properties. -/
theorem time_slots_spec_witness :
    (480, 540) ∈ _generate_time_slots_list 480 1020 ∧
      ((540 = 480 + 60 ∨ 540 = 480 + 90) ∧ (∃ k, 480 = 480 + 30 * k) ∧
        480 ≤ 480 ∧ 540 ≤ 1020) :=
  ⟨by decide, time_slots_spec.1 480 1020 480 540 (by decide)⟩

/-! ### Worklist initialization lemmas and claim C3 -/

theorem initQueue_mem {domains : Domains} {keys : List Var} {a b : Var}
    (h : (a, b) ∈ initQueue domains true keys) :
    (lookupDomain domains a).length < 40 ∧ (lookupDomain domains b).length < 40 := by
  induction keys with
  | nil => simp [initQueue] at h
  | cons xi rest ih =>
    simp only [initQueue] at h
    rcases List.mem_append.mp h with h1 | h2
    · rw [List.mem_flatten] at h1
      obtain ⟨l, hl, hab⟩ := h1
      rw [List.mem_map] at hl
      obtain ⟨xj, hxj, rfl⟩ := hl
      by_cases hc : queueCond domains true xi xj = true
      · rw [if_pos hc] at hab
        simp only [queueCond, Bool.not_true, Bool.false_or, Bool.and_eq_true,
          decide_eq_true_eq] at hc
        rcases List.mem_cons.mp hab with h3 | h3
        · obtain ⟨ha, hb⟩ := Prod.mk.injEq .. ▸ h3
          rw [ha, hb]
          exact hc
        · rcases List.mem_cons.mp h3 with h4 | h4
          · obtain ⟨ha, hb⟩ := Prod.mk.injEq .. ▸ h4
            rw [ha, hb]
            exact ⟨hc.2, hc.1⟩
          · simp at h4
      · rw [if_neg hc] at hab
        simp at hab
    · exact ih h2

theorem initQueue_mem_of_lt {domains : Domains} {xi xj : Var}
    (h1 : (lookupDomain domains xi).length < 40)
    (h2 : (lookupDomain domains xj).length < 40) :
    ∀ l1 l2 l3 : List Var,
      (xi, xj) ∈ initQueue domains true (l1 ++ xi :: l2 ++ xj :: l3) ∧
      (xj, xi) ∈ initQueue domains true (l1 ++ xi :: l2 ++ xj :: l3) := by
  have hc : queueCond domains true xi xj = true := by
    simp only [queueCond, Bool.not_true, Bool.false_or, Bool.and_eq_true, decide_eq_true_eq]
    exact ⟨h1, h2⟩
  intro l1
  induction l1 with
  | nil =>
    intro l2 l3
    simp only [List.nil_append, initQueue]
    have hblock : [(xi, xj), (xj, xi)] ∈
        (l2 ++ xj :: l3).map (fun y =>
          if queueCond domains true xi y then [(xi, y), (y, xi)] else []) := by
      rw [List.mem_map]
      refine ⟨xj, by simp, ?_⟩
      rw [if_pos hc]
    constructor
    · exact List.mem_append_left _ (List.mem_flatten.mpr ⟨_, hblock, by simp⟩)
    · exact List.mem_append_left _ (List.mem_flatten.mpr ⟨_, hblock, by simp⟩)
  | cons y rest ih =>
    intro l2 l3
    simp only [List.cons_append, initQueue]
    exact ⟨List.mem_append_right _ (ih l2 l3).1, List.mem_append_right _ (ih l2 l3).2⟩

/-- C3, counterexample: with trimming enabled, a pair in which only ONE
domain reaches the trim threshold is nevertheless omitted from the initial
worklist.  Here variable "A" has 41 candidate groups and "B" has 1, yet the
worklist over the key list of the domains map is empty: the claim that
every pair with at most one oversized domain is enqueued fails. -/
theorem ac3_trim_counterexample :
    (lookupDomain [("A", List.replicate 41 ([] : Group)), ("B", [([] : Group)])] "A").length
        = 41 ∧
    (lookupDomain [("A", List.replicate 41 ([] : Group)), ("B", [([] : Group)])] "B").length
        = 1 ∧
    initQueue [("A", List.replicate 41 ([] : Group)), ("B", [([] : Group)])] true
      ((([("A", List.replicate 41 ([] : Group)), ("B", [([] : Group)])] : Domains)).map
        Prod.fst) = [] := by
  decide

/-- C3, amended: with trimming enabled, a variable pair is enqueued (in both
orders) if and only if BOTH variables' domains have size strictly below the
trim threshold 40; every pair in which at least one domain has 40 or more
values is omitted from the initial worklist. -/
theorem ac3_trim_spec :
    (∀ (domains : Domains) (a b : Var),
      (a, b) ∈ initQueue domains true (domains.map Prod.fst) →
      (lookupDomain domains a).length < 40 ∧ (lookupDomain domains b).length < 40) ∧
    (∀ (domains : Domains) (l1 l2 l3 : List Var) (xi xj : Var),
      domains.map Prod.fst = l1 ++ xi :: l2 ++ xj :: l3 →
      (lookupDomain domains xi).length < 40 →
      (lookupDomain domains xj).length < 40 →
      (xi, xj) ∈ initQueue domains true (domains.map Prod.fst) ∧
      (xj, xi) ∈ initQueue domains true (domains.map Prod.fst)) := by
  constructor
  · intro domains a b h
    exact initQueue_mem h
  · intro domains l1 l2 l3 xi xj hsplit h1 h2
    rw [hsplit]
    exact initQueue_mem_of_lt h1 h2 l1 l2 l3

/-- C3 witness: in a two-variable map with domain sizes 1 and 2 the pair is
enqueued in both orders. -/
theorem ac3_trim_spec_witness :
    ((("A" : Var), ("B" : Var)) ∈
      initQueue [("A", [([] : Group)]), ("B", [[], []])] true
        ((([("A", [([] : Group)]), ("B", [[], []])] : Domains)).map Prod.fst)) ∧
    ((("B" : Var), ("A" : Var)) ∈
      initQueue [("A", [([] : Group)]), ("B", [[], []])] true
        ((([("A", [([] : Group)]), ("B", [[], []])] : Domains)).map Prod.fst)) :=
  ac3_trim_spec.2 [("A", [[]]), ("B", [[], []])] [] [] [] "A" "B" (by decide)
    (by decide) (by decide)


/-! ### AC-3 loop soundness -/

theorem revise_fast_snd_of_false {domains : Domains} {xi xj : Var}
    (h : (revise_fast domains xi xj).1 = false) :
    (revise_fast domains xi xj).2 = domains := by
  simp only [revise_fast] at h ⊢
  split_ifs at h ⊢ with h1 h2
  · rfl
  · rfl

theorem ac3Loop_sound (allKeys : List Var) (maxRev : Nat) (queue : List (Var × Var))
    (domains : Domains) (revisions : Nat) :
    (∀ v, (lookupDomain (ac3Loop allKeys maxRev queue domains revisions).2 v).Sublist
        (lookupDomain domains v)) ∧
    ((ac3Loop allKeys maxRev queue domains revisions).1 = false →
      ∃ v, lookupDomain (ac3Loop allKeys maxRev queue domains revisions).2 v = [] ∧
        lookupDomain domains v ≠ []) := by
  induction queue, domains, revisions using ac3Loop.induct allKeys maxRev with
  | case1 domains revisions =>
    have hstep : ac3Loop allKeys maxRev [] domains revisions = (true, domains) := by
      rw [ac3Loop.eq_def]
    rw [hstep]
    exact ⟨fun v => List.Sublist.refl _, by simp⟩
  | case2 domains revisions xi xj rest h r hr hempty =>
    have hr2 : (revise_fast domains xi xj).1 = true := hr
    have hempty2 : (lookupDomain (revise_fast domains xi xj).2 xi).isEmpty = true := hempty
    have hstep : ac3Loop allKeys maxRev ((xi, xj) :: rest) domains revisions =
        (false, (revise_fast domains xi xj).2) := by
      rw [ac3Loop.eq_def]
      simp [h, hr2, hempty2]
    rw [hstep]
    refine ⟨fun v => revise_fast_sublist domains xi xj v, fun _ => ⟨xi, ?_, ?_⟩⟩
    · exact List.isEmpty_iff.mp hempty2
    · exact revise_fast_fst_true hr2
  | case3 domains revisions xi xj rest h r hr hempty ih =>
    have hr2 : (revise_fast domains xi xj).1 = true := hr
    have hempty2 : ¬(lookupDomain (revise_fast domains xi xj).2 xi).isEmpty = true := hempty
    have hstep : ac3Loop allKeys maxRev ((xi, xj) :: rest) domains revisions =
        ac3Loop allKeys maxRev
          (rest ++ (allKeys.filter (fun xk => !(decide (xk = xi) || decide (xk = xj)))).map
            (fun xk => (xk, xi)))
          (revise_fast domains xi xj).2 (revisions + 1) := by
      rw [ac3Loop.eq_def]
      simp [h, hr2, hempty2]
    rw [hstep]
    obtain ⟨ihsub, ihfalse⟩ := ih
    constructor
    · intro v
      exact (ihsub v).trans (revise_fast_sublist domains xi xj v)
    · intro hf
      obtain ⟨v, hnil, hne⟩ := ihfalse hf
      refine ⟨v, hnil, fun hd => hne ?_⟩
      have hsub := revise_fast_sublist domains xi xj v
      rw [hd] at hsub
      exact List.sublist_nil.mp hsub
  | case4 domains revisions xi xj rest h r hr ih =>
    have hrf : (revise_fast domains xi xj).1 = false := by
      rw [← Bool.not_eq_true]
      exact hr
    have hr2 : (revise_fast domains xi xj).2 = domains := revise_fast_snd_of_false hrf
    have hstep : ac3Loop allKeys maxRev ((xi, xj) :: rest) domains revisions =
        ac3Loop allKeys maxRev rest domains revisions := by
      rw [ac3Loop.eq_def]
      simp [h, hrf, hr2]
    rw [hstep]
    rw [hr2] at ih
    exact ih
  | case5 domains revisions xi xj rest h =>
    have hstep : ac3Loop allKeys maxRev ((xi, xj) :: rest) domains revisions =
        (true, domains) := by
      rw [ac3Loop.eq_def]
      simp [h]
    rw [hstep]
    exact ⟨fun v => List.Sublist.refl _, by simp⟩

theorem ac3_sound (domains : Domains) (trim : Bool) :
    (∀ v, (lookupDomain (ac3 domains trim).2 v).Sublist (lookupDomain domains v)) ∧
    ((ac3 domains trim).1 = false →
      ∃ v, lookupDomain (ac3 domains trim).2 v = [] ∧ lookupDomain domains v ≠ []) := by
  simp only [ac3]
  split
  · exact ⟨fun v => List.Sublist.refl _, by simp⟩
  · exact ac3Loop_sound _ _ _ _ _

/-! ### Claims C4 and C10 -/

/-- C4: after `ac3` runs, every variable's final domain is a sublist of its
initial domain, and whenever `ac3` returns `false` some variable's domain
was made empty by a revision during the run (it ends empty but started
nonempty). -/
theorem ac3_monotone_spec (domains : Domains) (trim : Bool) :
    (∀ v, (lookupDomain (ac3 domains trim).2 v).Sublist (lookupDomain domains v)) ∧
    ((ac3 domains trim).1 = false →
      ∃ v, lookupDomain (ac3 domains trim).2 v = [] ∧ lookupDomain domains v ≠ []) :=
  ac3_sound domains trim

/-- First of two single-instance groups with the same instructor at
overlapping times on the same day: each empties the other's domain under
revision. -/
def exConflictA : Session := ⟨some 1, some 1, some 1, "Monday", ⟨8, 0⟩, ⟨9, 0⟩⟩

/-- Second conflicting session (same instructor and room, distinct subject). -/
def exConflictB : Session := ⟨some 2, some 1, some 1, "Monday", ⟨8, 30⟩, ⟨9, 30⟩⟩

/-- A two-variable domains map on which `ac3` fails. -/
def c4Dom : Domains := [("A", [[exConflictA]]), ("B", [[exConflictB]])]

theorem c4Dom_ac3_false : (ac3 c4Dom true).1 = false := by
  show (ac3Loop ["A", "B"] 200 (initQueue c4Dom true ["A", "B"]) c4Dom 0).1 = false
  rw [ac3Loop.eq_def]
  decide

/-- C4 witness: on `c4Dom`, `ac3` returns `false` and indeed some domain
went from nonempty to empty. -/
theorem ac3_monotone_spec_witness :
    (ac3 c4Dom true).1 = false ∧
    (∃ v, lookupDomain (ac3 c4Dom true).2 v = [] ∧ lookupDomain c4Dom v ≠ []) :=
  ⟨c4Dom_ac3_false, (ac3_monotone_spec c4Dom true).2 c4Dom_ac3_false⟩

/-- C10: `revise_fast` against an empty domain on either side reports no
revision and leaves the domains untouched, and `ac3` returns `false` only
when a revision removed the last value of a previously nonempty domain —
so an initially empty domain never fails the propagation and never prunes
a neighbour. -/
theorem ac3_empty_domain_spec :
    (∀ (domains : Domains) (xi xj : Var), lookupDomain domains xi = [] →
      revise_fast domains xi xj = (false, domains)) ∧
    (∀ (domains : Domains) (xi xj : Var), lookupDomain domains xj = [] →
      revise_fast domains xi xj = (false, domains)) ∧
    (∀ (domains : Domains) (trim : Bool), (ac3 domains trim).1 = false →
      ∃ v, lookupDomain domains v ≠ [] ∧ lookupDomain (ac3 domains trim).2 v = []) := by
  refine ⟨revise_fast_empty_xi, revise_fast_empty_xj, fun domains trim h => ?_⟩
  obtain ⟨v, h1, h2⟩ := (ac3_sound domains trim).2 h
  exact ⟨v, h2, h1⟩

/-- C10 witness: a concrete map in which variable "A" has an empty domain —
revising it against "B" is a no-op reporting `false`. -/
theorem ac3_empty_domain_spec_witness :
    lookupDomain [("A", ([] : List Group)), ("B", [[]])] "A" = [] ∧
    revise_fast [("A", ([] : List Group)), ("B", [[]])] "A" "B" =
      (false, [("A", ([] : List Group)), ("B", [[]])]) :=
  ⟨by decide, ac3_empty_domain_spec.1 [("A", []), ("B", [[]])] "A" "B" (by decide)⟩

/-! ### Claim C5 -/

/-- C5: during backtracking, a candidate whose (first-session) instructor
has status "part time" is rejected by `is_consistent_assignment` exactly
when the union of the days already assigned to that instructor and the
candidate's days has exactly one distinct day; any other candidate is never
rejected by the day-spread rule, i.e. the check reduces to the pairwise
compatibility test alone. -/
theorem part_time_spread_spec (status : Option Nat → String) (assignment : Assign)
    (candidate : Group) (s0 : Session) (h0 : candidate.head? = some s0) :
    ((status s0.instructor_id = "part time" ∧
        (spreadDays assignment candidate s0.instructor_id).length = 1) →
      is_consistent_assignment status assignment candidate = false) ∧
    (¬(status s0.instructor_id = "part time" ∧
        (spreadDays assignment candidate s0.instructor_id).length = 1) →
      is_consistent_assignment status assignment candidate =
        assignment.all (fun p => groups_compatible candidate p.2)) := by
  unfold is_consistent_assignment
  rw [h0]
  cases hall : assignment.all (fun p => groups_compatible candidate p.2) with
  | false =>
    rw [if_neg (by simp)]
    exact ⟨fun _ => rfl, fun _ => rfl⟩
  | true =>
    rw [if_pos rfl]
    constructor
    · rintro ⟨hpt, hlen⟩
      simp [hpt, hlen]
    · intro hn
      by_cases hpt : status s0.instructor_id = "part time"
      · by_cases hlen : (spreadDays assignment candidate s0.instructor_id).length = 1
        · exact absurd ⟨hpt, hlen⟩ hn
        · simp [hpt, hlen]
      · simp [hpt]

/-- A status map making instructor 7 part-time. -/
def exPartTimeStatus : Option Nat → String :=
  fun i => if i = some 7 then "part time" else ""

/-- A single-day candidate group taught by instructor 7. -/
def exPartTimeCand : Group := [⟨some 3, some 7, some 2, "Monday", ⟨8, 0⟩, ⟨9, 0⟩⟩]

/-- C5 witness: with no prior assignments, a one-day candidate of a
part-time instructor is rejected by the day-spread rule. -/
theorem part_time_spread_spec_witness :
    (exPartTimeStatus (some 7) = "part time" ∧
      (spreadDays [] exPartTimeCand (some 7)).length = 1) ∧
    is_consistent_assignment exPartTimeStatus [] exPartTimeCand = false :=
  ⟨⟨by decide, by decide⟩,
    (part_time_spread_spec exPartTimeStatus [] exPartTimeCand
      ⟨some 3, some 7, some 2, "Monday", ⟨8, 0⟩, ⟨9, 0⟩⟩ rfl).1 ⟨by decide, by decide⟩⟩

/-! ### Backtracking: invariants and small lemmas -/

/-- Total session count the solver charges to instructor `i` over an
assignment (groups are charged to their first session's instructor, as in
`backtrack`). -/
def loadSum (asg : Assign) (i : Nat) : Nat :=
  (asg.map (fun p => if groupInstructor p.2 = some i then p.2.length else 0)).sum

/-- The pairwise relation maintained along the assignment list: every later
entry was checked compatible (candidate first) against every earlier one. -/
def pairComp (p q : Var × Group) : Prop := groups_compatible q.2 p.2 = true

theorem pairComp_symmetric : Symmetric pairComp := by
  intro p q h
  unfold pairComp at *
  rw [groups_compatible_symm]
  exact h

/-- What holds of every assignment returned by the backtracking search. -/
structure GoodRes (maxl : Loads) (res : Assign) (dom : Domains) : Prop where
  nodup : (res.map Prod.fst).Nodup
  sub : res.map Prod.fst ⊆ dom.map Prod.fst
  pw : res.Pairwise pairComp
  loads : ∀ i, loadSum res i ≤ loadGet maxl i
  complete : res.length = dom.length

/-- The invariant of the search state (partial assignment plus load map). -/
structure BtInv (maxl : Loads) (asg : Assign) (dom : Domains) (load : Loads) : Prop where
  nodup : (asg.map Prod.fst).Nodup
  sub : asg.map Prod.fst ⊆ dom.map Prod.fst
  pw : asg.Pairwise pairComp
  loadEq : ∀ i, loadGet load i = loadSum asg i
  loadLe : ∀ i, loadGet load i ≤ loadGet maxl i

theorem GoodRes_congr {maxl : Loads} {res : Assign} {d1 d2 : Domains}
    (h : GoodRes maxl res d1) (hk : d1.map Prod.fst = d2.map Prod.fst) :
    GoodRes maxl res d2 := by
  refine ⟨h.nodup, hk ▸ h.sub, h.pw, h.loads, ?_⟩
  have hlen : d1.length = d2.length := by
    rw [← List.length_map d1 Prod.fst, hk, List.length_map]
  rw [h.complete, hlen]

theorem BtInv_congr {maxl : Loads} {asg : Assign} {d1 d2 : Domains} {load : Loads}
    (h : BtInv maxl asg d1 load) (hk : d1.map Prod.fst = d2.map Prod.fst) :
    BtInv maxl asg d2 load :=
  ⟨h.nodup, hk ▸ h.sub, h.pw, h.loadEq, h.loadLe⟩

theorem loadGet_loadSet (l : Loads) (i n j : Nat) :
    loadGet (loadSet l i n) j = if i = j then n else loadGet l j := by
  induction l with
  | nil => simp [loadSet, loadGet]
  | cons p rest ih =>
    obtain ⟨k, m⟩ := p
    by_cases hk : k = i
    · subst hk
      by_cases hj : k = j <;> simp [loadSet, loadGet, hj]
    · by_cases hj : k = j
      · subst hj
        have hik : ¬i = k := fun hh => hk hh.symm
        simp [loadSet, loadGet, hk, hik]
      · simp [loadSet, loadGet, hk, hj, ih]

theorem loadSum_append (asg : Assign) (var : Var) (group : Group) (i : Nat) :
    loadSum (asg ++ [(var, group)]) i =
      loadSum asg i + (if groupInstructor group = some i then group.length else 0) := by
  simp [loadSum]

theorem is_consistent_all {status : Option Nat → String} {assignment : Assign}
    {candidate : Group} (h : is_consistent_assignment status assignment candidate = true) :
    ∀ p ∈ assignment, groups_compatible candidate p.2 = true := by
  unfold is_consistent_assignment at h
  split at h
  · next hall => exact List.all_eq_true.mp hall
  · simp at h

theorem firstMinBy_mem (f : Var → Nat) (x : Var) (xs : List Var) :
    firstMinBy f x xs ∈ x :: xs := by
  unfold firstMinBy
  induction xs generalizing x with
  | nil => simp
  | cons y ys ih =>
    simp only [List.foldl_cons]
    rcases List.mem_cons.mp (ih (if f y < f x then y else x)) with h | h
    · rw [h]
      by_cases hc : f y < f x
      · rw [if_pos hc]
        exact List.mem_cons_of_mem _ (List.mem_cons_self _ _)
      · rw [if_neg hc]
        exact List.mem_cons_self _ _
    · exact List.mem_cons_of_mem _ (List.mem_cons_of_mem _ h)

theorem select_unassigned_variable_mem {domains : Domains} {assignment : Assign} {v : Var}
    (h : select_unassigned_variable domains assignment = some v) :
    v ∈ domains.map Prod.fst ∧ v ∉ assignment.map Prod.fst := by
  unfold select_unassigned_variable at h
  rcases hu : (domains.map Prod.fst).filter
      (fun w => !(decide (w ∈ assignment.map Prod.fst))) with _ | ⟨x, xs⟩
  · rw [hu] at h
    simp at h
  · rw [hu] at h
    simp only [Option.some.injEq] at h
    have hmem : v ∈ x :: xs := h ▸ firstMinBy_mem _ x xs
    rw [← hu] at hmem
    have hf := List.mem_filter.mp hmem
    refine ⟨hf.1, ?_⟩
    simpa using hf.2

theorem restoreBackup_map_fst (b : List (Var × List Group)) :
    ∀ domains : Domains,
      (restoreBackup domains b).map Prod.fst = domains.map Prod.fst := by
  induction b with
  | nil => intro domains; rfl
  | cons p rest ih =>
    intro domains
    obtain ⟨v, old⟩ := p
    simp only [restoreBackup]
    rw [ih, setDomain_map_fst]


theorem forwardLoop_map_fst (assignment : Assign) (var : Var) (value : Group) :
    ∀ (ks : List Var) (domains d : Domains) (backup : List (Var × List Group)),
      forwardLoop assignment var value domains ks = some (d, backup) →
      d.map Prod.fst = domains.map Prod.fst := by
  intro ks
  induction ks with
  | nil =>
    intro domains d backup h
    simp only [forwardLoop, Option.some.injEq, Prod.mk.injEq] at h
    rw [← h.1]
  | cons v rest ih =>
    intro domains d backup h
    simp only [forwardLoop] at h
    split at h
    · exact ih domains d backup h
    · split at h
      · simp at h
      · split at h
        · split at h
          · simp at h
          · next d2 backup2 heq =>
            simp only [Option.some.injEq, Prod.mk.injEq] at h
            rw [← h.1, ih _ _ _ heq, setDomain_map_fst]
        · exact ih domains d backup h

theorem tryGroupsWith_map_fst
    (bt : Assign → Domains → Loads → Option Assign × Domains)
    (hbtk : ∀ a d l, (bt a d l).2.map Prod.fst = d.map Prod.fst)
    (status : Option Nat → String) (maxl : Loads) (asg : Assign) (var : Var) :
    ∀ (l : List Group) (domains : Domains) (load : Loads),
      (tryGroupsWith bt status maxl asg var domains load l).2.map Prod.fst =
        domains.map Prod.fst := by
  intro l
  induction l with
  | nil => intro domains load; rfl
  | cons group rest ih =>
    intro domains load
    simp only [tryGroupsWith]
    split
    · exact ih domains load
    · split
      · exact ih domains load
      · next instr hinstr =>
        split
        · exact ih domains load
        · split
          · exact ih domains load
          · split
            · exact ih domains load
            · next domains2 backup hfc =>
              have hk2 : domains2.map Prod.fst = domains.map Prod.fst :=
                forwardLoop_map_fst _ _ _ _ _ _ _ hfc
              split
              · next result dAfter hbtres =>
                have hk3 : dAfter.map Prod.fst = domains2.map Prod.fst := by
                  have hh := hbtk (asg ++ [(var, group)]) domains2
                    (loadSet load instr (loadGet load instr + group.length))
                  rw [hbtres] at hh
                  exact hh
                split
                · rw [ih _ load, restoreBackup_map_fst, hk3, hk2]
                · rw [hk3, hk2]
              · next dAfter hbtres =>
                have hk3 : dAfter.map Prod.fst = domains2.map Prod.fst := by
                  have hh := hbtk (asg ++ [(var, group)]) domains2
                    (loadSet load instr (loadGet load instr + group.length))
                  rw [hbtres] at hh
                  exact hh
                rw [ih _ load, restoreBackup_map_fst, hk3, hk2]

theorem backtrackFuel_map_fst (status : Option Nat → String) (maxl : Loads) :
    ∀ (fuel : Nat) (asg : Assign) (domains : Domains) (load : Loads),
      (backtrackFuel status maxl fuel asg domains load).2.map Prod.fst =
        domains.map Prod.fst := by
  intro fuel
  induction fuel with
  | zero => intro asg domains load; rfl
  | succ fuel ih =>
    intro asg domains load
    simp only [backtrackFuel]
    split
    · rfl
    · split
      · rfl
      · next var hsel =>
        rw [tryGroupsWith_map_fst _ (fun a d l => ih a d l) status maxl asg var _ _ load]
        split
        · rw [setDomain_map_fst]
        · rfl


/-! ### Backtracking soundness -/

theorem tryGroupsWith_sound
    (bt : Assign → Domains → Loads → Option Assign × Domains)
    (status : Option Nat → String) (maxl : Loads)
    (hbtk : ∀ a d l, (bt a d l).2.map Prod.fst = d.map Prod.fst)
    (hbt : ∀ a d l res d2, BtInv maxl a d l → bt a d l = (some res, d2) →
      GoodRes maxl res d)
    (asg : Assign) (var : Var) :
    ∀ (l : List Group) (domains : Domains) (load : Loads) (res : Assign)
      (dFinal : Domains),
      BtInv maxl asg domains load → var ∈ domains.map Prod.fst →
      var ∉ asg.map Prod.fst →
      tryGroupsWith bt status maxl asg var domains load l = (some res, dFinal) →
      GoodRes maxl res domains := by
  intro l
  induction l with
  | nil =>
    intro domains load res dFinal _ _ _ h
    simp [tryGroupsWith] at h
  | cons group rest ih =>
    intro domains load res dFinal hinv hvd hva h
    simp only [tryGroupsWith] at h
    split at h
    · exact ih domains load res dFinal hinv hvd hva h
    · next s0 hs0 =>
      split at h
      · exact ih domains load res dFinal hinv hvd hva h
      · next instr hinstr =>
        split at h
        · exact ih domains load res dFinal hinv hvd hva h
        · next hload =>
          split at h
          · exact ih domains load res dFinal hinv hvd hva h
          · next hcons =>
            split at h
            · exact ih domains load res dFinal hinv hvd hva h
            · next domains2 backup hfc =>
              have hk2 : domains2.map Prod.fst = domains.map Prod.fst :=
                forwardLoop_map_fst _ _ _ _ _ _ _ hfc
              have hconsT : is_consistent_assignment status asg group = true := by
                cases hb : is_consistent_assignment status asg group with
                | false => rw [hb] at hcons; simp at hcons
                | true => rfl
              have hgi : groupInstructor group = some instr := by
                simp [groupInstructor, hs0, hinstr]
              have hloadLe : loadGet load instr + group.length ≤ loadGet maxl instr := by
                omega
              have hinv2 : BtInv maxl (asg ++ [(var, group)]) domains2
                  (loadSet load instr (loadGet load instr + group.length)) := by
                refine ⟨?_, ?_, ?_, ?_, ?_⟩
                · simp only [List.map_append, List.map_cons, List.map_nil]
                  rw [List.nodup_append]
                  exact ⟨hinv.nodup, List.nodup_singleton _,
                    by simpa using fun hv => hva hv⟩
                · intro x hx
                  rw [hk2]
                  simp only [List.map_append, List.map_cons, List.map_nil] at hx
                  rcases List.mem_append.mp hx with h1 | h1
                  · exact hinv.sub h1
                  · simp only [List.mem_singleton] at h1
                    rw [h1]
                    exact hvd
                · rw [List.pairwise_append]
                  refine ⟨hinv.pw, List.pairwise_singleton _ _, ?_⟩
                  intro p hp q hq
                  simp only [List.mem_singleton] at hq
                  rw [hq]
                  unfold pairComp
                  exact is_consistent_all hconsT p hp
                · intro i
                  rw [loadGet_loadSet, loadSum_append, hgi]
                  by_cases hi : instr = i
                  · subst hi
                    rw [if_pos rfl, if_pos rfl, hinv.loadEq instr]
                  · rw [if_neg hi, if_neg (by simp [hi]), hinv.loadEq i]
                    simp
                · intro i
                  rw [loadGet_loadSet]
                  by_cases hi : instr = i
                  · subst hi
                    rw [if_pos rfl]
                    exact hloadLe
                  · rw [if_neg hi]
                    exact hinv.loadLe i
              split at h
              · next result dAfter hbtres =>
                have hk3 : dAfter.map Prod.fst = domains2.map Prod.fst := by
                  have hh := hbtk (asg ++ [(var, group)]) domains2
                    (loadSet load instr (loadGet load instr + group.length))
                  rw [hbtres] at hh
                  exact hh
                split at h
                · have hkr : (restoreBackup dAfter backup).map Prod.fst =
                      domains.map Prod.fst := by
                    rw [restoreBackup_map_fst, hk3, hk2]
                  have hres := ih (restoreBackup dAfter backup) load res dFinal
                    (BtInv_congr hinv hkr.symm) (by rw [hkr]; exact hvd) hva h
                  exact GoodRes_congr hres hkr
                · simp only [Prod.mk.injEq, Option.some.injEq] at h
                  obtain ⟨hres, hdf⟩ := h
                  have hG := hbt (asg ++ [(var, group)]) domains2
                    (loadSet load instr (loadGet load instr + group.length)) res dAfter
                    hinv2 (by rw [hbtres, hres])
                  exact GoodRes_congr hG hk2
              · next dAfter hbtres =>
                have hk3 : dAfter.map Prod.fst = domains2.map Prod.fst := by
                  have hh := hbtk (asg ++ [(var, group)]) domains2
                    (loadSet load instr (loadGet load instr + group.length))
                  rw [hbtres] at hh
                  exact hh
                have hkr : (restoreBackup dAfter backup).map Prod.fst =
                    domains.map Prod.fst := by
                  rw [restoreBackup_map_fst, hk3, hk2]
                have hres := ih (restoreBackup dAfter backup) load res dFinal
                  (BtInv_congr hinv hkr.symm) (by rw [hkr]; exact hvd) hva h
                exact GoodRes_congr hres hkr

theorem backtrackFuel_sound (status : Option Nat → String) (maxl : Loads) :
    ∀ (fuel : Nat) (asg : Assign) (domains : Domains) (load : Loads) (res : Assign)
      (dFinal : Domains),
      BtInv maxl asg domains load →
      backtrackFuel status maxl fuel asg domains load = (some res, dFinal) →
      GoodRes maxl res domains := by
  intro fuel
  induction fuel with
  | zero =>
    intro asg domains load res dFinal _ h
    simp [backtrackFuel] at h
  | succ fuel ih =>
    intro asg domains load res dFinal hinv h
    simp only [backtrackFuel] at h
    split at h
    · next hlen =>
      simp only [Prod.mk.injEq, Option.some.injEq] at h
      obtain ⟨hres, _⟩ := h
      subst hres
      exact ⟨hinv.nodup, hinv.sub, hinv.pw,
        fun i => hinv.loadEq i ▸ hinv.loadLe i, hlen⟩
    · split at h
      · simp at h
      · next var hsel =>
        obtain ⟨hvd, hva⟩ := select_unassigned_variable_mem hsel
        have hk1 : (if (lookupDomain domains var).length ≤ 100 then
            setDomain domains var (sortGroups (lookupDomain domains var))
          else domains).map Prod.fst = domains.map Prod.fst := by
          split
          · rw [setDomain_map_fst]
          · rfl
        have hres := tryGroupsWith_sound
          (fun a d l => backtrackFuel status maxl fuel a d l) status maxl
          (fun a d l => backtrackFuel_map_fst status maxl fuel a d l)
          (fun a d l r d2 hI hEq => ih a d l r d2 hI hEq) asg var _ _ load res dFinal
          (BtInv_congr hinv hk1.symm) (by rw [hk1]; exact hvd) hva h
        exact GoodRes_congr hres hk1

theorem backtrack_sound (status : Option Nat → String) (domains : Domains)
    (maxl : Loads) (res : Assign) (dFinal : Domains)
    (h : backtrack status domains maxl = (some res, dFinal)) :
    GoodRes maxl res domains := by
  refine backtrackFuel_sound status maxl (domains.length + 1) [] domains [] res dFinal
    ⟨?_, ?_, ?_, ?_, ?_⟩ h
  · simp
  · simp
  · simp
  · intro i
    rfl
  · intro i
    simp [loadGet]


/-! ### Claims C1 and C2 -/

/-- C1: in every non-null assignment returned by `backtrack` (started from
the empty assignment and zero instructor loads), any two session instances
drawn from two different assigned groups that fall on the same (nonempty)
day at overlapping times share neither an instructor nor a room — sharing
meaning equal coerced ids, with the id 0 (a missing id, per `GroupKey`)
standing for no instructor/room at all. -/
theorem backtrack_no_conflicts (status : Option Nat → String) (domains : Domains)
    (maxl : Loads) (res : Assign) (dFinal : Domains)
    (h : backtrack status domains maxl = (some res, dFinal))
    (v1 v2 : Var) (g1 g2 : Group) (h1 : (v1, g1) ∈ res) (h2 : (v2, g2) ∈ res)
    (hv : v1 ≠ v2) (a b : Session) (ha : a ∈ g1) (hb : b ∈ g2)
    (hd : a.day_of_week = b.day_of_week) (hd0 : a.day_of_week ≠ "")
    (ho : intervals_overlap a.start_time a.end_time b.start_time b.end_time = true) :
    ¬(a.instructor_id.getD 0 = b.instructor_id.getD 0 ∧ a.instructor_id.getD 0 ≠ 0) ∧
    ¬(a.room_id.getD 0 = b.room_id.getD 0 ∧ a.room_id.getD 0 ≠ 0) := by
  have hG := backtrack_sound status domains maxl res dFinal h
  have hne : (v1, g1) ≠ (v2, g2) := fun hc => hv (congrArg Prod.fst hc)
  have hcomp : pairComp (v1, g1) (v2, g2) :=
    List.Pairwise.forall pairComp_symmetric hG.pw h1 h2 hne
  have hcomp2 : groups_compatible g1 g2 = true := by
    rw [groups_compatible_symm]
    exact hcomp
  have hok := groups_compatible_mem hcomp2 ha hb
  exact sessionPairOk_overlap hok hd hd0 ho

/-- First session of the concrete solvable two-subject instance. -/
def exRunA : Session := ⟨some 1, some 1, some 1, "Monday", ⟨8, 0⟩, ⟨9, 0⟩⟩

/-- Second session: same day, overlapping time, different instructor/room. -/
def exRunB : Session := ⟨some 2, some 2, some 2, "Monday", ⟨8, 30⟩, ⟨9, 30⟩⟩

/-- Domains of the concrete instance: one candidate group per subject. -/
def exRunDom : Domains := [("A", [[exRunA]]), ("B", [[exRunB]])]

/-- Load caps of the concrete instance. -/
def exRunMax : Loads := [(1, 5), (2, 5)]

/-- Status map of the concrete instance (nobody is part time). -/
def exRunStatus : Option Nat → String := fun _ => ""

/-- The assignment `backtrack` returns on the concrete instance. -/
def exRunRes : Assign := [("A", [exRunA]), ("B", [exRunB])]

/-- C1 witness: the concrete run succeeds, and its two same-day overlapping
instances share neither instructor nor room. -/
theorem backtrack_no_conflicts_witness :
    backtrack exRunStatus exRunDom exRunMax = (some exRunRes, exRunDom) ∧
    (¬(exRunA.instructor_id.getD 0 = exRunB.instructor_id.getD 0 ∧
        exRunA.instructor_id.getD 0 ≠ 0) ∧
      ¬(exRunA.room_id.getD 0 = exRunB.room_id.getD 0 ∧ exRunA.room_id.getD 0 ≠ 0)) :=
  ⟨by decide,
    backtrack_no_conflicts exRunStatus exRunDom exRunMax exRunRes exRunDom (by decide)
      "A" "B" [exRunA] [exRunB] (by decide) (by decide) (by decide) exRunA exRunB
      (by decide) (by decide) (by decide) (by decide) (by decide)⟩

/-- C2: every non-null result of `backtrack` (from the empty assignment and
zero loads, over a domains map with distinct keys) assigns exactly one
group to every variable of the domains map — its key list is a permutation
of the domains' key list — and for every instructor the total number of
session instances across that instructor's assigned groups stays within
that instructor's `max_load_units`. -/
theorem backtrack_complete_and_load (status : Option Nat → String) (domains : Domains)
    (maxl : Loads) (res : Assign) (dFinal : Domains)
    (h : backtrack status domains maxl = (some res, dFinal)) :
    List.Perm (res.map Prod.fst) (domains.map Prod.fst) ∧
    (∀ i, loadSum res i ≤ loadGet maxl i) := by
  have hG := backtrack_sound status domains maxl res dFinal h
  refine ⟨?_, hG.loads⟩
  have hsp : (res.map Prod.fst).Subperm (domains.map Prod.fst) :=
    List.Nodup.subperm hG.nodup hG.sub
  apply List.Subperm.perm_of_length_le hsp
  rw [List.length_map, List.length_map, hG.complete]

/-- C2 witness: on the concrete instance the returned assignment covers
exactly the two variables and respects both load caps. -/
theorem backtrack_complete_and_load_witness :
    backtrack exRunStatus exRunDom exRunMax = (some exRunRes, exRunDom) ∧
    (List.Perm (exRunRes.map Prod.fst) (exRunDom.map Prod.fst) ∧
      ∀ i, loadSum exRunRes i ≤ loadGet exRunMax i) :=
  ⟨by decide,
    backtrack_complete_and_load exRunStatus exRunDom exRunMax exRunRes exRunDom
      (by decide)⟩

end AutoScheduler
